import Mathlib

/-!
Verification of the azure-js-dev-tools repository's specification against its code.

Strings are modelled as `List Char` (the shallow embedding of JavaScript strings);
`chars` converts a Lean string literal into that representation.  The blob-path
definitions are translated from src/lib/blobStorage.ts.  The git command engine
(git.ts) is not under src/ — only its tests are — so its operations are modelled
from the specification, with every deviation that the repository's own tests pin
down noted on the definition it concerns.
-/

namespace AzureJsDevTools

/-- Convert a string literal to the character-list model of JavaScript strings. -/
def chars (s : String) : List Char := s.data

/-- Split at the first occurrence of `sep`: `some (before, after)` when present,
`none` when `sep` does not occur (the JavaScript `indexOf`-then-`substring` idiom). -/
def splitFirst (sep : Char) : List Char → Option (List Char × List Char)
  | [] => none
  | c :: r =>
    if c = sep then some ([], r)
    else
      match splitFirst sep r with
      | none => none
      | some (a, b) => some (c :: a, b)

/-- Split at the first occurrence of the character sequence `sep`. -/
def splitFirstSeq (sep : List Char) : List Char → Option (List Char × List Char)
  | [] => none
  | c :: r =>
    if sep.isPrefixOf (c :: r) then some ([], (c :: r).drop sep.length)
    else
      match splitFirstSeq sep r with
      | none => none
      | some (a, b) => some (c :: a, b)

/-- Split a character list into lines at newline characters. -/
def splitLines : List Char → List (List Char)
  | [] => [[]]
  | c :: r =>
    if c = '\n' then [] :: splitLines r
    else
      match splitLines r with
      | [] => [[c]]
      | l :: ls => (c :: l) :: ls

/-- Whitespace test for the JavaScript-style trim. -/
def isWS (c : Char) : Bool := c == ' ' || c == '\t' || c == '\r' || c == '\n'

/-- JavaScript-style trim: leading and trailing whitespace removed. -/
def trimChars (l : List Char) : List Char :=
  ((l.dropWhile isWS).reverse.dropWhile isWS).reverse

/-- Embedding of `BlobPath` from src/lib/blobStorage.ts: a container name and a blob name. -/
structure BlobPath where
  containerName : List Char
  blobName : List Char
deriving DecidableEq

/-- The argument of `BlobPath.parse` in the source is `string | BlobPath`. -/
inductive BlobPathArg
  | str (s : List Char)
  | path (p : BlobPath)

/-- Embedding of `BlobPath.toString` (src/lib/blobStorage.ts:85-87):
`containerName + "/" + blobName`. -/
def BlobPath.toString (p : BlobPath) : List Char :=
  p.containerName ++ '/' :: p.blobName

/-- Embedding of `BlobPath.parse` (src/lib/blobStorage.ts:94-112): a `BlobPath` argument is
returned unchanged; a falsy (empty) string yields an empty `BlobPath`; otherwise one leading
slash is stripped and the string is split at the first remaining slash. -/
def BlobPath.parse : BlobPathArg → BlobPath
  | .path p => p
  | .str s =>
    if s = [] then ⟨[], []⟩
    else
      let s1 := if s.head? = some '/' then s.drop 1 else s
      match splitFirst '/' s1 with
      | none => ⟨s1, []⟩
      | some (a, b) => ⟨a, b⟩

/-- The fixed placeholder substituted for a secret token before text reaches a log sink. -/
def placeholder : List Char := chars "<redacted>"

/-- Worker for `replaceAll`: `skip` counts characters of a previous match that remain to
be consumed; at `skip = 0` a match of `t` emits `p` and schedules the rest of the match
for consumption, and a non-match copies one character. -/
def replaceAllGo (t p : List Char) : Nat → List Char → List Char
  | _, [] => []
  | n + 1, _ :: r => replaceAllGo t p n r
  | 0, c :: r =>
    if t ≠ [] ∧ t.isPrefixOf (c :: r) then p ++ replaceAllGo t p (t.length - 1) r
    else c :: replaceAllGo t p 0 r

/-- Replace every occurrence of `t` in `s` by `p`, left to right, non-overlapping. -/
def replaceAll (t p s : List Char) : List Char := replaceAllGo t p 0 s

/-- Modelled from the spec: `redact(text)` of the missing credential module of git.ts
replaces every literal occurrence of the token with the fixed placeholder. -/
def redact (token text : List Char) : List Char := replaceAll token placeholder text

/-- Modelled from the spec: strip an existing user-info component from the part of a URL
after the scheme separator (drop everything through the at-sign of the authority). -/
def stripUserinfo (rest : List Char) : List Char :=
  match splitFirst '@' (rest.takeWhile (· ≠ '/')) with
  | none => rest
  | some (_, afterAt) => afterAt ++ rest.dropWhile (· ≠ '/')

/-- Modelled from the spec: `injectCredential(url, token)` of the missing credential
module (git.ts is not under src/) rewrites the URL to place the token as the user-info
component (scheme://token@host/path), overwriting any existing user-info. -/
def injectCredential (url token : List Char) : List Char :=
  match splitFirstSeq (chars "://") url with
  | none => url
  | some (scheme, rest) => scheme ++ chars "://" ++ token ++ '@' :: stripUserinfo rest

/-- Case-insensitive equality of character lists (the JavaScript lower-casing compare). -/
def lowerEq (a b : List Char) : Bool :=
  a.map Char.toLower == b.map Char.toLower

/-- Does a scope key of the "organization/repository" form match the given organization
(case-insensitively) and repository (exactly)? Keys without a slash never full-match. -/
def keyMatchesFull (key org repo : List Char) : Bool :=
  match splitFirst '/' key with
  | none => false
  | some (korg, krepo) => lowerEq korg org && krepo == repo

/-- Does an organization-only key (no slash) match the organization case-insensitively? -/
def keyMatchesOrg (key org : List Char) : Bool :=
  match splitFirst '/' key with
  | none => lowerEq key org
  | some _ => false

/-- First token bound to a full-matching key, scanning the mapping in order. -/
def findFullMatch (m : List (List Char × List Char)) (org repo : List Char) :
    Option (List Char) :=
  match m with
  | [] => none
  | (k, t) :: rest =>
    if keyMatchesFull k org repo then some t else findFullMatch rest org repo

/-- First token bound to an organization-matching key, scanning the mapping in order. -/
def findOrgMatch (m : List (List Char × List Char)) (org : List Char) :
    Option (List Char) :=
  match m with
  | [] => none
  | (k, t) :: rest =>
    if keyMatchesOrg k org then some t else findOrgMatch rest org

/-- Modelled from the spec (§4.2), for the missing git.ts credential module: ordered
lookup in a scope mapping — the exact "organization/repository" key first, then the
"organization" key alone; first match wins; absent when no key matches.  Organization
comparison is case-insensitive, as fixed by the repository's tests (gitTests.ts:450-488). -/
def scopeTokenLookup (m : List (List Char × List Char)) (org repo : List Char) :
    Option (List Char) :=
  match findFullMatch m org repo with
  | some t => some t
  | none => findOrgMatch m org

/-- Strip a trailing ".git" from a repository segment. -/
def stripDotGit (s : List Char) : List Char :=
  if (chars ".git").isSuffixOf s then s.take (s.length - 4) else s

/-- Modelled from the spec: parse a remote URL into organization and repository segments —
the first two path components after the authority, the repository stripped of ".git". -/
def parseOrgRepo (url : List Char) : Option (List Char × List Char) :=
  match splitFirstSeq (chars "://") url with
  | none => none
  | some (_, rest) =>
    match splitFirst '/' (stripUserinfo rest) with
    | none => none
    | some (_, path) =>
      match splitFirst '/' path with
      | none => none
      | some (org, afterOrg) =>
        let repo :=
          match splitFirst '/' afterOrg with
          | none => afterOrg
          | some (r, _) => r
        some (org, stripDotGit repo)

/-- The engine's authentication configuration: a single token applying to every URL, or a
scope mapping from organization or organization/repository keys to tokens. -/
inductive Authentication
  | token (t : List Char)
  | scopes (m : List (List Char × List Char))

/-- Modelled from the spec: `resolveToken(url, authenticationConfig)` of the missing
git.ts credential module. -/
def resolveToken (auth : Authentication) (url : List Char) : Option (List Char) :=
  match auth with
  | .token t => some t
  | .scopes m =>
    match parseOrgRepo url with
    | none => none
    | some (org, repo) => scopeTokenLookup m org repo

/-- Modelled from the spec: the URL actually placed on the command line — the token is
injected when one resolves, and the URL is unmodified otherwise. -/
def authenticatedUrl (auth : Authentication) (url : List Char) : List Char :=
  match resolveToken auth url with
  | none => url
  | some t => injectCredential url t

/-- Embedding of the execution result (the `RunResult`/`ExecutableGit.Result` shape
observed through the tests): exit code, captured texts and process id when the process
ran, a structured spawn error otherwise. -/
structure ExecutionResult where
  exitCode : Option Nat
  stdout : Option (List Char)
  stderr : Option (List Char)
  processId : Option Nat
  error : Option (List Char)
deriving DecidableEq

/-- The Runner collaborator's outcome: a spawn-level failure, or a completed process. -/
inductive RunnerOutcome
  | spawnError (message : List Char)
  | completed (exitCode : Nat) (stdout stderr : List Char) (processId : Nat)

/-- Modelled from the spec (§4.3, §7) for the missing process execution adapter of
git.ts/run.ts: delegate to the Runner exactly once (the second component counts Runner
invocations — there is no retry) and map a spawn failure to a result with only `error`
populated, a completed process to a result with exit code, texts and process id. -/
def runAdapter : RunnerOutcome → ExecutionResult × Nat
  | .spawnError msg => (⟨none, none, none, none, some msg⟩, 1)
  | .completed code out err pid => (⟨some code, some out, some err, some pid, none⟩, 1)

/-- Modelled from the spec (§4.4 configuration-value parser) for the missing
`getConfigurationValue` of git.ts, with the value taken untrimmed as the repository's
tests fix it (gitTests.ts:1573-1582 asserts a configuration value ending in a newline):
the value is the raw stdout exactly when the exit code is zero and stdout non-empty. -/
def configurationValue (exitCode : Option Nat) (stdout : Option (List Char)) :
    Option (List Char) :=
  match stdout with
  | none => none
  | some s => if exitCode = some 0 ∧ s ≠ [] then some s else none

/-- Modelled from the spec (§4.4 branch listing parsers) for the missing local-branch
parser of git.ts: each line is trimmed, empty lines are skipped, the line carrying the
current-branch marker "* " names the current branch and every line contributes its
marker-stripped name. -/
def parseLocalBranches (stdout : List Char) : List Char × List (List Char) :=
  (splitLines stdout).foldl
    (fun acc line =>
      let tl := trimChars line
      if tl = [] then acc
      else if (chars "* ").isPrefixOf tl then
        (tl.drop 2, acc.2 ++ [tl.drop 2])
      else (acc.1, acc.2 ++ [tl]))
    ([], [])

/-- The `setUpstream` option of push: absent, a boolean, or a remote name. -/
inductive SetUpstream
  | unset
  | bool (b : Bool)
  | remote (name : List Char)

/-- Modelled from the spec (§4.5) for the missing push operation of git.ts: the ordered
sequence of command-line invocations push performs.  A falsy `setUpstream` (absent,
false, the empty string) emits plain push; a truthy one needs a remote (the string value,
or "origin" for `true`) and a branch; with no explicit branch name the engine first
queries the current branch with a `branch` invocation, feeding its stdout to the
local-branch parser, and only then emits the push invocation. -/
def pushPlan (setUpstream : SetUpstream) (branchName : Option (List Char)) (force : Bool)
    (branchQueryStdout : List Char) : List (List (List Char)) :=
  let forceArgs := if force then [chars "--force"] else []
  let upstreamRemote : Option (List Char) :=
    match setUpstream with
    | .unset => none
    | .bool false => none
    | .bool true => some (chars "origin")
    | .remote name => if name = [] then none else some name
  match upstreamRemote with
  | none => [[chars "push"] ++ forceArgs]
  | some rem =>
    match branchName with
    | some b => [[chars "push", chars "--set-upstream", rem, b] ++ forceArgs]
    | none =>
      let current := (parseLocalBranches branchQueryStdout).1
      [[chars "branch"],
       [chars "push", chars "--set-upstream", rem, current] ++ forceArgs]

/-- The merge options observed through the tests: tri-state squash and edit, a strategy
options string, quiet, commit messages and refs to merge (a single-string argument is a
one-element list). -/
structure MergeOptions where
  squash : Option Bool := none
  edit : Option Bool := none
  strategyOptions : List Char := []
  quiet : Option Bool := none
  messages : List (List Char) := []
  refsToMerge : List (List Char) := []

/-- Modelled from the spec (§4.1) and the tests' argv order for the missing merge builder
of git.ts: squash flag, edit flag, strategy option, quiet, messages, refs; the tri-state
flags map explicit true and false to distinct flags and are omitted when absent, and
falsy optional fields contribute nothing. -/
def mergeArgs (o : MergeOptions) : List (List Char) :=
  [chars "merge"] ++
  (match o.squash with
   | some true => [chars "--squash"]
   | some false => [chars "--no-squash"]
   | none => []) ++
  (match o.edit with
   | some true => [chars "--edit"]
   | some false => [chars "--no-edit"]
   | none => []) ++
  (if o.strategyOptions = [] then []
   else [chars "--strategy-option=" ++ o.strategyOptions]) ++
  (if o.quiet = some true then [chars "--quiet"] else []) ++
  o.messages.foldr (fun m acc => chars "-m" :: m :: acc) [] ++
  o.refsToMerge

/-- The logging-related options of a run. -/
structure LogOptions where
  showCommand : Bool
  showResult : Bool
  captureOutput : Bool
  captureError : Bool

/-- Redaction with an optionally resolved token: when none resolved, nothing changes. -/
def redactOpt (token : Option (List Char)) (s : List Char) : List Char :=
  match token with
  | none => s
  | some t => redact t s

/-- The echoed command line: optional working-folder marker, the fixed executable name
and the space-joined argument fragments. -/
def commandLine (folderPrefix : Option (List Char)) (args : List (List Char)) :
    List Char :=
  (match folderPrefix with
   | none => []
   | some f => f ++ chars ": ") ++
  args.foldl (fun acc a => acc ++ ' ' :: a) (chars "git")

/-- Numeric text of an exit code. -/
def natChars (n : Nat) : List Char := (Nat.repr n).data

/-- Modelled from the spec (§4.3 and the §6 logged text format) for the missing
run/logging layer of git.ts: in order, the redacted command line when `showCommand`;
then, when `showResult`, the redacted exit-code line, the "Error:" label followed by the
captured stderr when `captureError` and stderr is non-empty, and the "Output:" label
followed by the redacted captured stdout when `captureOutput` and stdout is non-empty.
Captured stderr passes to the sink verbatim — not redacted — as the repository's own test
fixes (gitTests.ts:928-961 expects the raw token inside the logged stderr). -/
def emittedLogs (token : Option (List Char)) (o : LogOptions)
    (folderPrefix : Option (List Char)) (args : List (List Char)) (r : ExecutionResult) :
    List (List Char) :=
  (if o.showCommand then [redactOpt token (commandLine folderPrefix args)] else []) ++
  (if o.showResult then
    [redactOpt token (chars "Exit Code: " ++ natChars (r.exitCode.getD 0))] ++
    (match r.stderr with
     | some e =>
       if o.captureError ∧ e ≠ [] then [redactOpt token (chars "Error:"), e] else []
     | none => []) ++
    (match r.stdout with
     | some s =>
       if o.captureOutput ∧ s ≠ [] then
         [redactOpt token (chars "Output:"), redactOpt token s]
       else []
     | none => [])
   else [])

/-- The stderr text of the push-with-invalid-authentication test. -/
def invalidAuthStderr : List Char :=
  chars "fatal: could not read Password for 'https://berry@github.com': No such device or address"

/-- One parsing mode of the status scanner: outside any file-list section, or inside the
staged, the not-staged or the untracked section. -/
inductive StatusMode
  | outside
  | staged
  | notStaged
  | untracked
deriving DecidableEq

/-- Relative paths collected by the status scan, per category, in parse order, together
with the branch lines found. -/
structure StatusPaths where
  localBranch : Option (List Char)
  remoteBranch : Option (List Char)
  notStagedModified : List (List Char)
  notStagedDeleted : List (List Char)
  stagedModified : List (List Char)
  stagedDeleted : List (List Char)
  untracked : List (List Char)
deriving DecidableEq

/-- The empty accumulator of the status scan. -/
def emptyStatusPaths : StatusPaths := ⟨none, none, [], [], [], [], []⟩

/-- The rest of a line after a given marker, when the marker starts it. -/
def afterMarker (marker l : List Char) : Option (List Char) :=
  if marker.isPrefixOf l then some (l.drop marker.length) else none

/-- Does the line start with indentation?  Untracked entries are indented, while the
trailer lines of the listing are not. -/
def isIndented (l : List Char) : Bool :=
  match l with
  | [] => false
  | c :: _ => c == ' ' || c == '\t'

/-- Process one line of status output in the current mode: branch lines and section
headers are recognised anywhere; inside the staged and not-staged sections only
label-pattern lines (modified, deleted) contribute paths; inside the untracked section
indented non-hint lines contribute paths; everything else is skipped, never fatal. -/
def statusLine (acc : StatusMode × StatusPaths) (line : List Char) :
    StatusMode × StatusPaths :=
  let mode := acc.1
  let p := acc.2
  let tl := trimChars line
  match afterMarker (chars "On branch ") tl with
  | some b => (mode, { p with localBranch := some b })
  | none =>
  match afterMarker (chars "HEAD detached at ") tl with
  | some b => (mode, { p with localBranch := some b })
  | none =>
  match afterMarker (chars "Your branch is up to date with '") tl with
  | some rest => (mode, { p with remoteBranch := some (rest.takeWhile (· ≠ '\'')) })
  | none =>
  if (chars "Changes to be committed").isPrefixOf tl then (.staged, p)
  else if (chars "Changes not staged for commit").isPrefixOf tl then (.notStaged, p)
  else if (chars "Untracked files").isPrefixOf tl then (.untracked, p)
  else
    match mode with
    | .staged =>
      match afterMarker (chars "modified:") tl with
      | some r => (mode, { p with stagedModified := p.stagedModified ++ [trimChars r] })
      | none =>
        match afterMarker (chars "deleted:") tl with
        | some r => (mode, { p with stagedDeleted := p.stagedDeleted ++ [trimChars r] })
        | none => (mode, p)
    | .notStaged =>
      match afterMarker (chars "modified:") tl with
      | some r =>
        (mode, { p with notStagedModified := p.notStagedModified ++ [trimChars r] })
      | none =>
        match afterMarker (chars "deleted:") tl with
        | some r => (mode, { p with notStagedDeleted := p.notStagedDeleted ++ [trimChars r] })
        | none => (mode, p)
    | .untracked =>
      if isIndented line ∧ tl ≠ [] ∧ tl.head? ≠ some '(' then
        (mode, { p with untracked := p.untracked ++ [tl] })
      else (mode, p)
    | .outside => (mode, p)

/-- Resolve a relative path against the execution directory (a trailing slash on the
directory is not duplicated). -/
def joinPath (dir rel : List Char) : List Char :=
  if dir = [] then rel
  else if dir.getLast? = some '/' then dir ++ rel
  else dir ++ '/' :: rel

/-- The structured status result: branches, per-category absolute paths, the combined
modified-file sequence and the uncommitted-changes flag. -/
structure StatusResult where
  localBranch : Option (List Char)
  remoteBranch : Option (List Char)
  modifiedFiles : List (List Char)
  notStagedModifiedFiles : List (List Char)
  notStagedDeletedFiles : List (List Char)
  stagedModifiedFiles : List (List Char)
  stagedDeletedFiles : List (List Char)
  untrackedFiles : List (List Char)
  hasUncommittedChanges : Bool
deriving DecidableEq

/-- Modelled from the spec (§4.4 status parser and §3 StatusSnapshot) for the missing
status parser of git.ts: scan the stdout lines with the sectioned line scanner, resolve
every collected relative path against the supplied execution directory, and form
`modifiedFiles` as the union, in parse order, of the not-staged-modified, staged-modified
and untracked paths, duplicates kept. -/
def parseStatus (dir stdout : List Char) : StatusResult :=
  let p := ((splitLines stdout).foldl statusLine (.outside, emptyStatusPaths)).2
  let nsm := p.notStagedModified.map (joinPath dir)
  let nsd := p.notStagedDeleted.map (joinPath dir)
  let sm := p.stagedModified.map (joinPath dir)
  let sd := p.stagedDeleted.map (joinPath dir)
  let ut := p.untracked.map (joinPath dir)
  ⟨p.localBranch, p.remoteBranch, nsm ++ sm ++ ut, nsm, nsd, sm, sd, ut,
    !(nsm.isEmpty && nsd.isEmpty && sm.isEmpty && sd.isEmpty && ut.isEmpty)⟩

/-- The stdout of the not-staged-modified-file status test (gitTests.ts:1405-1443). -/
def statusStdoutNotStaged : List Char :=
  chars "On branch daschult/ci\nYour branch is up to date with 'origin/daschult/ci'.\n\nChanges not staged for commit:\n(use \"git add <file>...\" to update what will be committed)\n(use \"git checkout -- <file>...\" to discard changes in working directory)\n\n      modified:   gulpfile.ts\n\nno changes added to commit (use \"git add\" and/or \"git commit -a\")"

/-- The stdout of the untracked-files status test (gitTests.ts:1474-1527). -/
def statusStdoutUntracked : List Char :=
  chars "On branch master\nYour branch is up to date with 'origin/master'.\n\nChanges not staged for commit:\n  (use \"git add <file>...\" to update what will be committed)\n  (use \"git checkout -- <file>...\" to discard changes in working directory)\n\n  modified:   a/b.xml\n  modified:   a/b/c.txt\n\nUntracked files:\n  (use \"git add <file>...\" to include in what will be committed)\n\n  a.html\n  a/b.txt\n\nno changes added to commit (use \"git add\" and/or \"git commit -a\")"

/-- A status text listing the same relative path as not-staged-modified and untracked. -/
def statusStdoutDuplicate : List Char :=
  chars "On branch b\n\nChanges not staged for commit:\n\n  modified:   dup.txt\n\nUntracked files:\n\n  dup.txt\n"

/-! ## Helper lemmas -/

theorem splitFirst_eq_none (sep : Char) (s : List Char) (hs : sep ∉ s) :
    splitFirst sep s = none := by
  induction s with
  | nil => rfl
  | cons c r ih =>
    have hcs : c ≠ sep := fun h => hs (h ▸ List.mem_cons_self c r)
    have hs' : sep ∉ r := fun h => hs (List.mem_cons_of_mem c h)
    simp [splitFirst, hcs, ih hs']

theorem splitFirst_append_no_sep (sep : Char) (a b : List Char) (ha : sep ∉ a) :
    splitFirst sep (a ++ sep :: b) = some (a, b) := by
  induction a with
  | nil => simp [splitFirst]
  | cons c a ih =>
    have hcs : c ≠ sep := by
      intro h; exact ha (h ▸ List.mem_cons_self c a)
    have ha' : sep ∉ a := fun h => ha (List.mem_cons_of_mem c h)
    simp [splitFirst, hcs, ih ha']

theorem replaceAllGo_skip (t p : List Char) :
    ∀ (n : Nat) (s : List Char), replaceAllGo t p n s = replaceAllGo t p 0 (s.drop n) := by
  intro n
  induction n with
  | zero => intro s; rw [List.drop_zero]
  | succ n ih =>
    intro s
    cases s with
    | nil => simp [replaceAllGo]
    | cons c r => rw [replaceAllGo, ih r, List.drop_succ_cons]

theorem replaceAll_cons_pos (t p : List Char) (c : Char) (r : List Char) (ht : t ≠ [])
    (hpre : t.isPrefixOf (c :: r)) :
    replaceAll t p (c :: r) = p ++ replaceAll t p ((c :: r).drop t.length) := by
  obtain ⟨x, t1, hxt⟩ := List.exists_cons_of_ne_nil ht
  rw [replaceAll, replaceAllGo, if_pos ⟨ht, hpre⟩, replaceAllGo_skip, replaceAll]
  have hlen : t.length - 1 + 1 = t.length := by rw [hxt]; simp
  rw [← hlen, List.drop_succ_cons]
  simp

theorem replaceAll_cons_neg (t p : List Char) (c : Char) (r : List Char)
    (h : ¬t.isPrefixOf (c :: r)) :
    replaceAll t p (c :: r) = c :: replaceAll t p r := by
  rw [replaceAll, replaceAllGo, if_neg (by rintro ⟨-, hp⟩; exact h hp)]
  rfl

/-- An occurrence inside a concatenation lies in the left part, in the right part, or
spans the border with a non-trivial suffix of the left part and prefix of the right. -/
theorem append_occurrence_cases {α : Type} {t A B : List α} (h : t <:+: A ++ B) :
    t <:+: A ∨ t <:+: B ∨
      ∃ t1 t2, t1 ++ t2 = t ∧ t1 ≠ [] ∧ t2 ≠ [] ∧ t1 <:+ A ∧ t2 <+: B := by
  obtain ⟨u, v, huv⟩ := h
  rw [List.append_assoc] at huv
  rcases List.append_eq_append_iff.mp huv with ⟨x, hAx, htv⟩ | ⟨x, hux, hBx⟩
  · rcases List.append_eq_append_iff.mp htv.symm with ⟨w, hxw, hvw⟩ | ⟨w, htw, hBw⟩
    · rcases eq_or_ne x [] with hx | hx
      · refine Or.inr (Or.inl ⟨[], v, ?_⟩)
        rw [hx, List.nil_append] at hxw
        rw [List.nil_append, hxw, hvw]
      rcases eq_or_ne w [] with hw | hw
      · refine Or.inl ⟨u, [], ?_⟩
        rw [hw, List.append_nil] at hxw
        rw [List.append_nil, hxw, hAx]
      · exact Or.inr (Or.inr ⟨x, w, hxw.symm, hx, hw, ⟨u, hAx.symm⟩, ⟨v, hvw.symm⟩⟩)
    · refine Or.inl ⟨u, w, ?_⟩
      rw [hAx, htw]
      exact List.append_assoc u t w
  · refine Or.inr (Or.inl ⟨x, v, ?_⟩)
    rw [hBx]
    exact List.append_assoc x t v

/-- The last element of a concatenation ending in `[c]` belongs to any non-empty
final segment. -/
theorem last_mem_of_append_eq {α : Type} :
    ∀ (w t1 L : List α) (c : α), w ++ t1 = L ++ [c] → t1 ≠ [] → c ∈ t1 := by
  intro w
  induction w with
  | nil =>
    intro t1 L c h _
    rw [List.nil_append] at h
    rw [h]
    exact List.mem_append_right L (List.mem_singleton.mpr rfl)
  | cons a w ih =>
    intro t1 L c h hne
    cases L with
    | nil =>
      simp only [List.nil_append, List.cons_append, List.cons_eq_cons] at h
      rcases h with ⟨-, h2⟩
      have := List.append_eq_nil.mp h2
      exact absurd this.2 hne
    | cons b L' =>
      simp only [List.cons_append, List.cons_eq_cons] at h
      exact ih t1 L' c h.2 hne

theorem placeholder_split : placeholder = chars "<redacted" ++ ['>'] := by decide

theorem placeholder_cons : placeholder = '<' :: chars "redacted>" := by decide

/-- A proper suffix fragment of the token, found as a prefix of the redacted text, is
already a prefix of the original text (the placeholder cannot begin it because its head
character is not in the token). -/
theorem token_tail_transfer (t : List Char) (hlt : '<' ∉ t) :
    ∀ (r w : List Char), w <:+ t → w.length < t.length →
      w <+: replaceAll t placeholder r → w <+: r := by
  intro r
  induction r with
  | nil =>
    intro w _ _ hw
    rw [replaceAll] at hw
    simp only [replaceAllGo] at hw
    rw [List.prefix_nil.mp hw]
  | cons c r ih =>
    intro w hsuf hlen hw
    have ht : t ≠ [] := by
      intro h; rw [h] at hlen; exact Nat.not_lt_zero _ hlen
    by_cases hpre : t.isPrefixOf (c :: r)
    · rw [replaceAll_cons_pos t placeholder c r ht hpre] at hw
      cases w with
      | nil => exact List.nil_prefix
      | cons a w1 =>
        rw [placeholder_cons, List.cons_append] at hw
        obtain ⟨ha, -⟩ := List.cons_prefix_cons.mp hw
        have hat : a ∈ t := hsuf.subset (List.mem_cons_self a w1)
        rw [ha] at hat
        exact absurd hat hlt
    · rw [replaceAll_cons_neg t placeholder c r hpre] at hw
      cases w with
      | nil => exact List.nil_prefix
      | cons a w1 =>
        obtain ⟨ha, hw1⟩ := List.cons_prefix_cons.mp hw
        have hsuf1 : w1 <:+ t := (List.suffix_cons a w1).trans hsuf
        have hlen1 : w1.length < t.length := by
          have : w1.length < (a :: w1).length := by simp
          exact this.trans hlen
        have := ih w1 hsuf1 hlen1 hw1
        rw [ha]
        exact List.cons_prefix_cons.mpr ⟨rfl, this⟩

/-- Core redaction property: after replacing every occurrence of a token that is
non-empty, avoids the placeholder delimiter characters and is not a substring of the
placeholder, the token does not occur in the result. -/
theorem token_not_in_replaceAll (t : List Char) (ht : t ≠ []) (h1 : '<' ∉ t)
    (h2 : '>' ∉ t) (h3 : ¬t <:+: placeholder) :
    ∀ (n : Nat) (s : List Char), s.length ≤ n → ¬t <:+: replaceAll t placeholder s := by
  intro n
  induction n with
  | zero =>
    intro s hs hinf
    have hnil : s = [] := List.eq_nil_of_length_eq_zero (Nat.le_zero.mp hs)
    rw [hnil, replaceAll] at hinf
    simp only [replaceAllGo] at hinf
    exact ht (List.infix_nil.mp hinf)
  | succ n ih =>
    intro s hs hinf
    cases s with
    | nil =>
      rw [replaceAll] at hinf
      simp only [replaceAllGo] at hinf
      exact ht (List.infix_nil.mp hinf)
    | cons c r =>
      have htlen : 1 ≤ t.length := by
        cases t with
        | nil => exact absurd rfl ht
        | cons x xs => simp
      by_cases hpre : t.isPrefixOf (c :: r)
      · rw [replaceAll_cons_pos t placeholder c r ht hpre] at hinf
        rcases append_occurrence_cases hinf with hA | hB | ⟨t1, t2, heq, h1ne, h2ne, hsuf, hpre2⟩
        · exact h3 hA
        · have hdl : ((c :: r).drop t.length).length ≤ n := by
            rw [List.length_drop]
            have : (c :: r).length ≤ n + 1 := hs
            omega
          exact ih _ hdl hB
        · obtain ⟨w, hw⟩ := hsuf
          rw [placeholder_split] at hw
          have : '>' ∈ t1 := last_mem_of_append_eq w t1 (chars "<redacted") '>' hw h1ne
          exact h2 (heq ▸ List.mem_append_left t2 this)
      · rw [replaceAll_cons_neg t placeholder c r hpre] at hinf
        rcases List.infix_cons_iff.mp hinf with hp | hX
        · obtain ⟨a, t1, hat⟩ := List.exists_cons_of_ne_nil ht
          rw [hat] at hp
          obtain ⟨hac, ht1⟩ := List.cons_prefix_cons.mp hp
          rw [← hat] at ht1
          have hsuf1 : t1 <:+ t := by rw [hat]; exact List.suffix_cons a t1
          have hlen1 : t1.length < t.length := by rw [hat]; simp
          have hpr := token_tail_transfer t h1 r t1 hsuf1 hlen1 ht1
          have hfull : t <+: c :: r := by
            rw [hat, hac]
            exact List.cons_prefix_cons.mpr ⟨rfl, hpr⟩
          exact hpre (List.isPrefixOf_iff_prefix.mpr hfull)
        · have hrl : r.length ≤ n := by
            have : (c :: r).length ≤ n + 1 := hs
            simpa using this
          exact ih r hrl hX

/-- Redaction removes every occurrence of a well-behaved token, whatever the text. -/
theorem redact_removes_token (t : List Char) (ht : t ≠ []) (h1 : '<' ∉ t) (h2 : '>' ∉ t)
    (h3 : ¬t <:+: placeholder) (s : List Char) : ¬t <:+: redact t s :=
  token_not_in_replaceAll t ht h1 h2 h3 s.length s le_rfl

theorem findFullMatch_append_first (org repo k t : List Char)
    (m1 m2 : List (List Char × List Char)) (hk : keyMatchesFull k org repo = true)
    (hm1 : ∀ kv ∈ m1, keyMatchesFull kv.1 org repo = false) :
    findFullMatch (m1 ++ (k, t) :: m2) org repo = some t := by
  induction m1 with
  | nil => simp [findFullMatch, hk]
  | cons kv rest ih =>
    have hkv : keyMatchesFull kv.1 org repo = false := hm1 kv (List.mem_cons_self kv rest)
    have hrest : ∀ kv ∈ rest, keyMatchesFull kv.1 org repo = false := fun x hx =>
      hm1 x (List.mem_cons_of_mem kv hx)
    cases kv with
    | mk k0 t0 =>
      rw [List.cons_append, findFullMatch, if_neg (by simp_all)]
      exact ih hrest

theorem findFullMatch_none (org repo : List Char) (m : List (List Char × List Char))
    (hm : ∀ kv ∈ m, keyMatchesFull kv.1 org repo = false) :
    findFullMatch m org repo = none := by
  induction m with
  | nil => rfl
  | cons kv rest ih =>
    cases kv with
    | mk k0 t0 =>
      rw [findFullMatch, if_neg (by simpa using hm (k0, t0) (List.mem_cons_self _ rest))]
      exact ih fun x hx => hm x (List.mem_cons_of_mem _ hx)

theorem findOrgMatch_none (org : List Char) (m : List (List Char × List Char))
    (hm : ∀ kv ∈ m, keyMatchesOrg kv.1 org = false) :
    findOrgMatch m org = none := by
  induction m with
  | nil => rfl
  | cons kv rest ih =>
    cases kv with
    | mk k0 t0 =>
      rw [findOrgMatch, if_neg (by simpa using hm (k0, t0) (List.mem_cons_self _ rest))]
      exact ih fun x hx => hm x (List.mem_cons_of_mem _ hx)

/-! ## Claims -/

/-- C10: `BlobPath.parse` is a left inverse of `BlobPath.toString` whenever the container
name is non-empty, contains no forward slash and does not start with one; `parse` returns a
`BlobPath` argument unchanged, maps the empty string to an empty `BlobPath`, and maps a
slash-free string to a `BlobPath` with that string as container name and empty blob name. -/
theorem blobPath_parse_spec :
    (∀ p : BlobPath, p.containerName ≠ [] → '/' ∉ p.containerName →
      p.containerName.head? ≠ some '/' →
      BlobPath.parse (.str p.toString) = p)
  ∧ (∀ p : BlobPath, BlobPath.parse (.path p) = p)
  ∧ BlobPath.parse (.str []) = ⟨[], []⟩
  ∧ (∀ s : List Char, s ≠ [] → '/' ∉ s → BlobPath.parse (.str s) = ⟨s, []⟩) := by
  refine ⟨?_, fun p => rfl, rfl, ?_⟩
  · intro p hne hns hh
    obtain ⟨x, c, hc⟩ : ∃ x c, p.containerName = x :: c :=
      (List.exists_cons_of_ne_nil hne).imp fun x ⟨c, h⟩ => ⟨c, h⟩
    have hxs : x ≠ '/' := by
      intro h; exact hns (h ▸ (hc ▸ List.mem_cons_self x c))
    have h1 : ¬(p.containerName ++ '/' :: p.blobName = []) := by simp
    have h2 : ¬((p.containerName ++ '/' :: p.blobName).head? = some '/') := by
      rw [hc]; simp [hxs]
    have h3 := splitFirst_append_no_sep '/' p.containerName p.blobName hns
    show BlobPath.parse (.str (p.containerName ++ '/' :: p.blobName)) = p
    simp only [BlobPath.parse, if_neg h1, if_neg h2, h3]
  · intro s hne hns
    have hh : ¬(s.head? = some '/') := by
      cases s with
      | nil => simp
      | cons x r =>
        have hx : x ≠ '/' := fun h => hns (h ▸ List.mem_cons_self x r)
        simp [hx]
    simp only [BlobPath.parse, if_neg hne, if_neg hh, splitFirst_eq_none '/' s hns]

/-- Witness for C10 at concrete inputs. -/
theorem blobPath_parse_spec_witness :
    BlobPath.parse (.str (BlobPath.toString ⟨chars "abc", chars "d/e"⟩)) = ⟨chars "abc", chars "d/e"⟩
  ∧ BlobPath.parse (.str (chars "xyz")) = ⟨chars "xyz", []⟩ :=
  ⟨blobPath_parse_spec.1 ⟨chars "abc", chars "d/e"⟩ (by decide) (by decide) (by decide),
   blobPath_parse_spec.2.2.2 (chars "xyz") (by decide) (by decide)⟩

/-- C3 counterexample: for the token "act" — a substring of the placeholder — the claim
fails: the redacted injected URL still contains a literal occurrence of the token, inside
the substituted placeholder itself. -/
theorem redact_inject_token_counterexample :
    chars "act" <:+:
      redact (chars "act") (injectCredential (chars "https://h/p") (chars "act")) := by
  decide

/-- C3 (amended): for every URL and every token that is non-empty, contains neither of
the placeholder delimiter characters and is not a substring of the placeholder, redacting
the credential-injected URL yields a string with no literal occurrence of the token. -/
theorem redact_injectCredential_no_token (url t : List Char) (ht : t ≠ [])
    (h1 : '<' ∉ t) (h2 : '>' ∉ t) (h3 : ¬t <:+: placeholder) :
    ¬t <:+: redact t (injectCredential url t) :=
  redact_removes_token t ht h1 h2 h3 (injectCredential url t)

/-- Witness for C3 (amended) at the token and URL of the repository's clone tests. -/
theorem redact_injectCredential_no_token_witness :
    ¬chars "berry" <:+:
      redact (chars "berry")
        (injectCredential (chars "https://github.com/ts-common/azure-js-dev-tools.git")
          (chars "berry")) :=
  redact_injectCredential_no_token
    (chars "https://github.com/ts-common/azure-js-dev-tools.git") (chars "berry")
    (by decide) (by decide) (by decide) (by decide)

/-- C4: `resolveToken` prefers an exact "organization/repository" key: the token of the
first full-matching key is returned regardless of the keys before it (none of which
full-match — they may well org-match), and when no key matches at all the result is
absent. -/
theorem resolveToken_full_key_preferred (url org repo k t : List Char)
    (m1 m2 : List (List Char × List Char))
    (hurl : parseOrgRepo url = some (org, repo))
    (hk : keyMatchesFull k org repo = true)
    (hm1 : ∀ kv ∈ m1, keyMatchesFull kv.1 org repo = false) :
    resolveToken (.scopes (m1 ++ (k, t) :: m2)) url = some t
  ∧ ∀ (m : List (List Char × List Char)),
      (∀ kv ∈ m, keyMatchesFull kv.1 org repo = false ∧ keyMatchesOrg kv.1 org = false) →
      resolveToken (.scopes m) url = none := by
  constructor
  · simp only [resolveToken, hurl, scopeTokenLookup,
      findFullMatch_append_first org repo k t m1 m2 hk hm1]
  · intro m hm
    simp only [resolveToken, hurl, scopeTokenLookup,
      findFullMatch_none org repo m (fun kv hkv => (hm kv hkv).1),
      findOrgMatch_none org m (fun kv hkv => (hm kv hkv).2)]

/-- Witness for C4: a mapping holding a matching organization-only key first, a
full-name key of a sibling repository and the exact full-name key last still resolves the
exact full-name key's token (mirrors the multiple-repositories clone test). -/
theorem resolveToken_full_key_preferred_witness :
    resolveToken
      (.scopes [(chars "ts-common", chars "orgtoken"),
        (chars "ts-common/azure-js-dev", chars "apples"),
        (chars "ts-common/azure-js-dev-tools", chars "bananas")])
      (chars "https://github.com/ts-common/azure-js-dev-tools.git")
      = some (chars "bananas") :=
  (resolveToken_full_key_preferred
    (chars "https://github.com/ts-common/azure-js-dev-tools.git")
    (chars "ts-common") (chars "azure-js-dev-tools")
    (chars "ts-common/azure-js-dev-tools") (chars "bananas")
    [(chars "ts-common", chars "orgtoken"), (chars "ts-common/azure-js-dev", chars "apples")]
    [] (by decide) (by decide) (by decide)).1

/-- C9: an organization-only scope key is matched case-insensitively against the URL's
organization segment — the key "TS-COMMON" resolves a token for a URL whose organization
segment is "ts-common" and the URL is rewritten with the token, while the key "TSUNCOMMON"
resolves nothing and leaves the URL unmodified. -/
theorem org_scope_case_insensitive :
    resolveToken (.scopes [(chars "TS-COMMON", chars "berry")])
      (chars "https://github.com/ts-common/azure-js-dev-tools.git") = some (chars "berry")
  ∧ authenticatedUrl (.scopes [(chars "TS-COMMON", chars "berry")])
      (chars "https://github.com/ts-common/azure-js-dev-tools.git")
      = chars "https://berry@github.com/ts-common/azure-js-dev-tools.git"
  ∧ resolveToken (.scopes [(chars "TSUNCOMMON", chars "berry")])
      (chars "https://github.com/ts-common/azure-js-dev-tools.git") = none
  ∧ authenticatedUrl (.scopes [(chars "TSUNCOMMON", chars "berry")])
      (chars "https://github.com/ts-common/azure-js-dev-tools.git")
      = chars "https://github.com/ts-common/azure-js-dev-tools.git" :=
  ⟨by decide, by decide, by decide, by decide⟩

/-- C5: a failed spawn yields a result with only `error` populated — exit code, stdout,
stderr and process id all absent — after exactly one Runner invocation (never retried),
while a completed process populates exit code, stdout and stderr normally and leaves
`error` absent. -/
theorem spawn_failure_only_error (msg : List Char) (code pid : Nat) (out err : List Char) :
    runAdapter (.spawnError msg) = (⟨none, none, none, none, some msg⟩, 1)
  ∧ runAdapter (.completed code out err pid)
      = (⟨some code, some out, some err, some pid, none⟩, 1) :=
  ⟨rfl, rfl⟩

/-- C7 counterexample: with exit code zero and stdout "v\n" the configuration value is
the raw stdout, not the trimmed stdout the claim requires. -/
theorem configurationValue_untrimmed_counterexample :
    configurationValue (some 0) (some (chars "v\n")) ≠ some (trimChars (chars "v\n")) := by
  decide

/-- C7 (amended): the configuration value is the raw, untrimmed stdout exactly when the
exit code is zero and stdout is non-empty; in every other case (any nonzero or absent
exit code, empty or absent stdout) it is absent — evaluated also at the exit codes and
texts of the repository's tests. -/
theorem configurationValue_characterization (ec : Option Nat) (so : Option (List Char))
    (v : List Char) :
    (configurationValue ec so = some v ↔ ec = some 0 ∧ so = some v ∧ v ≠ [])
  ∧ configurationValue (some 2) (some (chars "c")) = none
  ∧ configurationValue (some 1) (some [])  = none
  ∧ configurationValue (some 0) (some (chars "url\n")) = some (chars "url\n") := by
  refine ⟨⟨?_, ?_⟩, by decide, by decide, by decide⟩
  · intro h
    rcases so with _ | s
    · simp [configurationValue] at h
    · rcases eq_or_ne ec (some 0) with he | he
      · rcases eq_or_ne s [] with hs | hs
        · simp [configurationValue, he, hs] at h
        · simp only [configurationValue] at h
          rw [if_pos (And.intro he hs)] at h
          obtain rfl : s = v := Option.some_inj.mp h
          exact ⟨he, rfl, hs⟩
      · rw [configurationValue, if_neg (by rintro ⟨h1, -⟩; exact he h1)] at h
        exact absurd h (by simp)
  · rintro ⟨h1, h2, h3⟩
    subst h1
    subst h2
    rw [configurationValue, if_pos ⟨rfl, h3⟩]

/-- Witness for C7 (amended): the forward characterisation applied at the exit code and
stdout of the existing-configuration-value test. -/
theorem configurationValue_characterization_witness :
    configurationValue (some 0) (some (chars "url\n")) = some (chars "url\n") :=
  (configurationValue_characterization (some 0) (some (chars "url\n"))
    (chars "url\n")).1.mpr ⟨rfl, rfl, by decide⟩

/-- C1: push with `setUpstream` "hello" and no explicit branch name first performs the
branch-listing sub-call (argv ["branch"]) and then invokes exactly
["push", "--set-upstream", "hello", "myfakebranch"] when the query reports myfakebranch
as current; with `setUpstream` true the remote resolves to "origin". -/
theorem push_set_upstream_plan :
    pushPlan (.remote (chars "hello")) none false (chars "* myfakebranch")
      = [[chars "branch"],
         [chars "push", chars "--set-upstream", chars "hello", chars "myfakebranch"]]
  ∧ pushPlan (.bool true) none false (chars "* myfakebranch")
      = [[chars "branch"],
         [chars "push", chars "--set-upstream", chars "origin", chars "myfakebranch"]] :=
  ⟨by decide, by decide⟩

/-- C8: squash and edit map explicit true to the --squash and --edit flags and explicit
false to the --no-squash and --no-edit flags while absent omits the flag entirely; falsy
optional fields (empty message list, empty strategy options, quiet false) contribute no
argv entries, so merge with no options emits exactly ["merge"], the all-falsy invocation
of the tests emits exactly ["merge", "--no-squash", "--no-edit", "branch-to-merge"], and
an options record with all falsy optional fields builds the same argv as one with those
fields absent. -/
theorem merge_args_tri_state :
    mergeArgs {} = [chars "merge"]
  ∧ mergeArgs { squash := some true } = [chars "merge", chars "--squash"]
  ∧ mergeArgs { squash := some false } = [chars "merge", chars "--no-squash"]
  ∧ mergeArgs { edit := some true } = [chars "merge", chars "--edit"]
  ∧ mergeArgs { edit := some false } = [chars "merge", chars "--no-edit"]
  ∧ mergeArgs ⟨some false, some false, [], some false, [], [chars "branch-to-merge"]⟩
      = [chars "merge", chars "--no-squash", chars "--no-edit", chars "branch-to-merge"]
  ∧ ∀ (sq ed : Option Bool) (refs : List (List Char)),
      mergeArgs ⟨sq, ed, [], some false, [], refs⟩
        = mergeArgs ⟨sq, ed, [], none, [], refs⟩ := by
  refine ⟨by decide, by decide, by decide, by decide, by decide, by decide, ?_⟩
  intro sq ed refs
  rfl

/-- C2 counterexample: in the push-with-invalid-authentication scenario of the
repository's tests, the emitted log is exactly the test's expected list, whose last entry
— the captured stderr, passed to the sink verbatim — contains a literal occurrence of the
raw token "berry", and differs from its redacted form: the un-redacted token value
reaches the log sink. -/
theorem raw_token_reaches_log_counterexample :
    emittedLogs (some (chars "berry")) ⟨true, true, true, true⟩ none [chars "push"]
        ⟨some 128, none, some invalidAuthStderr, some 1234, none⟩
      = [chars "git push", chars "Exit Code: 128", chars "Error:", invalidAuthStderr]
  ∧ chars "berry" <:+: invalidAuthStderr
  ∧ redact (chars "berry") invalidAuthStderr ≠ invalidAuthStderr := by
  refine ⟨by decide, by decide, by decide⟩

/-- C2 (amended): every string emitted to the log other than captured stderr is redacted
before it reaches the sink, so under every configuration that does not capture stderr and
for every well-behaved token (non-empty, no placeholder delimiter characters, not a
substring of the placeholder) no emitted string contains a literal occurrence of the
token; captured stderr however is logged verbatim and can carry the raw token. -/
theorem no_token_in_logs_without_stderr_capture (t : List Char) (o : LogOptions)
    (folderPrefix : Option (List Char)) (args : List (List Char)) (r : ExecutionResult)
    (ht : t ≠ []) (h1 : '<' ∉ t) (h2 : '>' ∉ t) (h3 : ¬t <:+: placeholder)
    (hce : o.captureError = false) :
    ∀ s ∈ emittedLogs (some t) o folderPrefix args r, ¬t <:+: s := by
  intro s hs
  have key : ∀ x : List Char, s = redact t x → ¬t <:+: s := fun x hx =>
    hx ▸ redact_removes_token t ht h1 h2 h3 x
  rcases o with ⟨sc, sr, co, ce⟩
  simp only at hce
  subst hce
  rw [emittedLogs, List.mem_append] at hs
  rcases hs with hs | hs
  · cases sc with
    | false => simp at hs
    | true =>
      rw [if_pos rfl, List.mem_singleton] at hs
      exact key _ hs
  · cases sr with
    | false => simp at hs
    | true =>
      rw [if_pos rfl, List.append_assoc, List.singleton_append, List.mem_cons,
        List.mem_append] at hs
      rcases hs with hs | hs | hs
      · exact key _ hs
      · have : (match r.stderr with
            | some e =>
              if (⟨sc, true, co, false⟩ : LogOptions).captureError ∧ e ≠ [] then
                [redactOpt (some t) (chars "Error:"), e]
              else []
            | none => ([] : List (List Char))) = [] := by
          cases r.stderr with
          | none => rfl
          | some e => simp
        rw [this] at hs
        simp at hs
      · cases hout : r.stdout with
        | none => rw [hout] at hs; simp at hs
        | some sout =>
          rw [hout] at hs
          simp only at hs
          by_cases hco : (co = true) ∧ sout ≠ []
          · rw [if_pos hco] at hs
            simp only [List.mem_cons, List.not_mem_nil, or_false] at hs
            rcases hs with hs | hs
            · exact key _ hs
            · exact key _ hs
          · rw [if_neg hco] at hs
            simp at hs

/-- Witness for C2 (amended): push with token "berry", result logging on but stderr
capture off, a result whose stdout itself contains the token — no emitted log string
contains the token. -/
theorem no_token_in_logs_witness :
    ¬chars "berry" <:+: chars "git push"
  ∧ ∀ s ∈ emittedLogs (some (chars "berry")) ⟨true, true, true, false⟩ none [chars "push"]
        ⟨some 0, some (chars "pushed to https://berry@github.com ok"), none, some 7, none⟩,
      ¬chars "berry" <:+: s := by
  refine ⟨by decide, ?_⟩
  exact no_token_in_logs_without_stderr_capture (chars "berry") ⟨true, true, true, false⟩
    none [chars "push"]
    ⟨some 0, some (chars "pushed to https://berry@github.com ok"), none, some 7, none⟩
    (by decide) (by decide) (by decide) (by decide) rfl

/-- C6: for every execution directory and status stdout, `modifiedFiles` equals the
union, in parse order, of the not-staged-modified, staged-modified and untracked
sequences; every entry is the execution directory joined with a relative path from the
text; the parser reproduces the two status tests of the repository exactly; and a path
listed in two categories appears once per category (duplicates not removed). -/
theorem status_modified_union (dir stdout : List Char) :
    ((parseStatus dir stdout).modifiedFiles
        = (parseStatus dir stdout).notStagedModifiedFiles
          ++ (parseStatus dir stdout).stagedModifiedFiles
          ++ (parseStatus dir stdout).untrackedFiles)
  ∧ (∀ x ∈ (parseStatus dir stdout).modifiedFiles, ∃ rel, x = joinPath dir rel)
  ∧ parseStatus (chars "/mock/folder/") statusStdoutNotStaged
      = ⟨some (chars "daschult/ci"), some (chars "origin/daschult/ci"),
          [chars "/mock/folder/gulpfile.ts"], [chars "/mock/folder/gulpfile.ts"],
          [], [], [], [], true⟩
  ∧ parseStatus (chars "/mock/folder/") statusStdoutUntracked
      = ⟨some (chars "master"), some (chars "origin/master"),
          [chars "/mock/folder/a/b.xml", chars "/mock/folder/a/b/c.txt",
           chars "/mock/folder/a.html", chars "/mock/folder/a/b.txt"],
          [chars "/mock/folder/a/b.xml", chars "/mock/folder/a/b/c.txt"],
          [], [], [],
          [chars "/mock/folder/a.html", chars "/mock/folder/a/b.txt"], true⟩
  ∧ (parseStatus (chars "/d") statusStdoutDuplicate).modifiedFiles
      = [chars "/d/dup.txt", chars "/d/dup.txt"] := by
  refine ⟨rfl, ?_, by decide, by decide, by decide⟩
  intro x hx
  rw [parseStatus] at hx
  simp only [List.mem_append, List.mem_map] at hx
  rcases hx with (⟨rel, -, hrel⟩ | ⟨rel, -, hrel⟩) | ⟨rel, -, hrel⟩ <;>
    exact ⟨rel, hrel.symm⟩

/-- Witness for C6 at the not-staged status test: the collected absolute path is the
execution directory joined with a relative path. -/
theorem status_modified_union_witness :
    ∃ rel, chars "/mock/folder/gulpfile.ts" = joinPath (chars "/mock/folder/") rel :=
  (status_modified_union (chars "/mock/folder/") statusStdoutNotStaged).2.1
    (chars "/mock/folder/gulpfile.ts") (by decide)

end AzureJsDevTools
